import Mathlib

/-!
Verification of the S-expression front end (src/lexer.rs, src/parser.rs).

The development shallowly embeds the two Rust modules:
- the nom-based tokenizer (src/lexer.rs): strings are lists of characters,
  each nom string parser becomes a function returning Option (rest, value),
  where none models nom Err;
- the token-stream parser (src/parser.rs): the Tokens cursor is a structure
  with the same three fields, each nom token parser becomes a function
  returning a PResult that distinguishes nom errors from Rust panics
  (out-of-bounds indexing, unreachable branches, unwrap on Err).

Machine integers: Rust i64 values are modelled as Int together with the
explicit bounds -2^63 and 2^63 - 1 at the single place the code checks
them (the overflow check inside the nom i64 digit-accumulation loop).
-/

namespace Tasks

/-- Bound 2^63 - 1, the largest i64 value (Rust i64::MAX). -/
def i64Max : Int := 9223372036854775807

/-- Bound -2^63, the smallest i64 value (Rust i64::MIN). -/
def i64Min : Int := -9223372036854775808

/-- Token type from src/lexer.rs: LParan, RParan, Integer(i64), Symbol(String). -/
inductive Token where
  | LParan : Token
  | RParan : Token
  | Integer : Int → Token
  | Symbol : String → Token
deriving DecidableEq, Repr

/-- Characters matched by nom multispace0: space, tab, newline, carriage return. -/
def isMultispace (c : Char) : Bool :=
  c == ' ' || c == '\t' || c == '\n' || c == '\r'

/-- Model of nom multispace0: drop leading whitespace characters. -/
def multispace0 (s : List Char) : List Char :=
  s.dropWhile isMultispace

/-- Model of Rust char::is_alphanumeric (Unicode Alphabetic or Number), which
src/lexer.rs uses in lex_symbol.  The model is exact on the Basic Latin,
Latin-1 Supplement, Latin Extended-A and Latin Extended-B blocks (code points
up to U+024F); code points above U+024F are outside the model and map to
false (a conservative under-approximation of the Rust predicate; no claim in
this development depends on characters above U+024F). -/
def rustIsAlphanumeric (c : Char) : Bool :=
  c.isAlphanum ||
    (let n := c.toNat
     n == 0xAA || n == 0xB2 || n == 0xB3 || n == 0xB5 || n == 0xB9 || n == 0xBA ||
     (0xBC ≤ n && n ≤ 0xBE) ||
     (0xC0 ≤ n && n ≤ 0x24F && n ≠ 0xD7 && n ≠ 0xF7))

/-- Character class accepted by take_while1 inside lex_symbol:
is_alphanumeric(x) or x == '_'. -/
def symChar (c : Char) : Bool :=
  rustIsAlphanumeric c || c == '_'

/-- Model of lex_lparan: preceded(multispace0, char '(') mapped to Token::LParan. -/
def lex_lparan (s : List Char) : Option (List Char × Token) :=
  match multispace0 s with
  | '(' :: r => some (r, Token.LParan)
  | _ => none

/-- Model of lex_rparan: preceded(multispace0, char ')') mapped to Token::RParan. -/
def lex_rparan (s : List Char) : Option (List Char × Token) :=
  match multispace0 s with
  | ')' :: r => some (r, Token.RParan)
  | _ => none

/-- Digit-accumulation loop of nom character::complete::i64 (positive branch:
checked value*10 + d, negative branch: checked value*10 - d; a digit that
overflows the i64 range is an error; a non-digit at position zero is an
error, a later non-digit ends the number). -/
def i64Digits (neg : Bool) (acc : Int) (pos : Nat) : List Char → Option (List Char × Int)
  | [] => some ([], acc)
  | c :: r =>
    if c.isDigit then
      let d : Int := (c.toNat - 48 : Nat)
      if neg then
        let v := acc * 10 - d
        if v < i64Min then none else i64Digits neg v (pos + 1) r
      else
        let v := acc * 10 + d
        if i64Max < v then none else i64Digits neg v (pos + 1) r
    else
      if pos == 0 then none else some (c :: r, acc)

/-- Model of nom character::complete::i64: an optional sign ('+' or '-'),
then at least one decimal digit, accumulated with i64 overflow checking. -/
def nomI64 (s : List Char) : Option (List Char × Int) :=
  let signed : Bool × List Char :=
    match s with
    | '+' :: r => (false, r)
    | '-' :: r => (true, r)
    | _ => (false, s)
  if signed.2.isEmpty then none
  else i64Digits signed.1 0 0 signed.2

/-- Model of lex_integer: preceded(multispace0, i64) mapped to Token::Integer. -/
def lex_integer (s : List Char) : Option (List Char × Token) :=
  match nomI64 (multispace0 s) with
  | some (r, v) => some (r, Token.Integer v)
  | none => none

/-- Model of lex_symbol: preceded(multispace0, take_while1(is_alphanumeric or
underscore)) mapped to Token::Symbol with the matched text. -/
def lex_symbol (s : List Char) : Option (List Char × Token) :=
  let r := multispace0 s
  let m := r.takeWhile symChar
  if m.isEmpty then none
  else some (r.dropWhile symChar, Token.Symbol (String.mk m))

/-- Model of alt((lex_lparan, lex_rparan, lex_integer, lex_symbol)): try each
rule in order, first success wins. -/
def lexAlt (s : List Char) : Option (List Char × Token) :=
  match lex_lparan s with
  | some r => some r
  | none =>
    match lex_rparan s with
    | some r => some r
    | none =>
      match lex_integer s with
      | some r => some r
      | none => lex_symbol s

/-- Model of nom many0 specialised to token lexing: repeat f until it errors,
collecting results.  nom aborts with a Many0 error when f succeeds without
consuming input; every rule used here strictly consumes on success, so the
guard is stated as strict decrease of the remaining length (for
length-non-increasing rules this is the same check) and doubles as the
termination measure. -/
def many0L (f : List Char → Option (List Char × Token)) (s : List Char) :
    Option (List Char × List Token) :=
  match f s with
  | none => some (s, [])
  | some (s1, t) =>
    if _h : s1.length < s.length then
      match many0L f s1 with
      | none => none
      | some (s2, ts) => some (s2, t :: ts)
    else none
termination_by s.length

/-- Model of the lexer entry point of src/lexer.rs:
all_consuming(many0(alt((lex_lparan, lex_rparan, lex_integer, lex_symbol)))).
The result is some tokens exactly when the whole input is consumed;
none models a nom lexing error. -/
def lexer (input : String) : Option (List Token) :=
  match many0L lexAlt input.data with
  | some (rest, toks) => if rest.isEmpty then some toks else none
  | none => none

/-- Expr AST type from src/parser.rs.  The reserved variants (Nil, String,
Lambda) are kept even though the current grammar never produces them. -/
inductive Expr where
  | Nil : Expr
  | Integer : Int → Expr
  | String : String → Expr
  | Symbol : String → Expr
  | Lambda : List String → List Expr → Expr
  | List : List Expr → Expr
deriving Repr

/-- Token-stream cursor from src/parser.rs: a view (tokens) plus the start
and end bookkeeping fields.  The Rust field named end is a Lean keyword and
is written with guillemets. -/
structure Tokens where
  tokens : List Token
  start : Nat
  «end» : Nat
deriving DecidableEq, Repr

/-- Constructor Tokens::new: full view, start 0, end len. -/
def Tokens.new (toks : List Token) : Tokens :=
  ⟨toks, 0, toks.length⟩

/-- Result of a token-level parser.  ok carries the remaining cursor and the
produced value (nom Ok), err models nom Err, and panic models a Rust panic
(out-of-bounds indexing, an unreachable! branch, or unwrap on Err). -/
inductive PResult (α : Type) where
  | ok : Tokens → α → PResult α
  | err : PResult α
  | panic : PResult α
deriving Repr

/-- Model of nom take(1usize) on Tokens: slice_index checks that at least one
token remains, then InputTake::take_split(1) splits the view, returning
(suffix cursor, one-token cursor); both fresh cursors get start 0 and end
equal to their own length, exactly as the take_split impl builds them. -/
def take1 (i : Tokens) : PResult Tokens :=
  if 1 ≤ i.tokens.length then
    PResult.ok ⟨i.tokens.drop 1, 0, (i.tokens.drop 1).length⟩
      ⟨i.tokens.take 1, 0, (i.tokens.take 1).length⟩
  else PResult.err

/-- Model of the tag_token! macro body: verify(take(1), closure matching
x.tokens[0] against the pattern).  The pattern becomes the predicate p; an
empty view under the closure would be an out-of-bounds panic. -/
def tag_token (p : Token → Bool) (input : Tokens) : PResult Tokens :=
  match take1 input with
  | PResult.ok rest x =>
    match x.tokens with
    | [] => PResult.panic
    | t :: _ => if p t then PResult.ok rest x else PResult.err
  | PResult.err => PResult.err
  | PResult.panic => PResult.panic

/-- Instance tag_lparan of the tag_token! macro (pattern Token::LParan). -/
def tag_lparan : Tokens → PResult Tokens :=
  tag_token fun t => match t with | Token.LParan => true | _ => false

/-- Instance tag_rparan of the tag_token! macro (pattern Token::RParan). -/
def tag_rparan : Tokens → PResult Tokens :=
  tag_token fun t => match t with | Token.RParan => true | _ => false

/-- Instance tag_integer of the tag_token! macro (pattern Token::Integer(_)). -/
def tag_integer : Tokens → PResult Tokens :=
  tag_token fun t => match t with | Token.Integer _ => true | _ => false

/-- Instance tag_symbol of the tag_token! macro (pattern Token::Symbol(_)). -/
def tag_symbol : Tokens → PResult Tokens :=
  tag_token fun t => match t with | Token.Symbol _ => true | _ => false

/-- Model of parse_integer: map(tag_integer, closure).  The closure reads
x.tokens[0] (panic when empty) and has an unreachable! arm for a non-Integer
token (panic when reached). -/
def parse_integer (input : Tokens) : PResult Expr :=
  match tag_integer input with
  | PResult.ok rest x =>
    match x.tokens with
    | [] => PResult.panic
    | Token.Integer i :: _ => PResult.ok rest (Expr.Integer i)
    | _ :: _ => PResult.panic
  | PResult.err => PResult.err
  | PResult.panic => PResult.panic

/-- Model of parse_symbol: map(tag_symbol, closure), with the same panic
structure as parse_integer. -/
def parse_symbol (input : Tokens) : PResult Expr :=
  match tag_symbol input with
  | PResult.ok rest x =>
    match x.tokens with
    | [] => PResult.panic
    | Token.Symbol s :: _ => PResult.ok rest (Expr.Symbol s)
    | _ :: _ => PResult.panic
  | PResult.err => PResult.err
  | PResult.panic => PResult.panic

mutual

/-- Model of parse_list: map(delimited(tag_lparan, many0(alt((parse_integer,
parse_symbol, parse_list))), tag_rparan), Expr::List). -/
def parse_list (input : Tokens) : PResult Expr :=
  match _h1 : tag_lparan input with
  | PResult.ok rest1 _ =>
    match many0_expr rest1 with
    | PResult.ok rest2 es =>
      match tag_rparan rest2 with
      | PResult.ok rest3 _ => PResult.ok rest3 (Expr.List es)
      | PResult.err => PResult.err
      | PResult.panic => PResult.panic
    | PResult.err => PResult.err
    | PResult.panic => PResult.panic
  | PResult.err => PResult.err
  | PResult.panic => PResult.panic
termination_by (input.tokens.length, 0)
decreasing_by
  · -- the call to many0_expr is on the cursor left after tag_lparan,
    -- which consumed one token
    have key1 : ∀ (i r x : Tokens), take1 i = PResult.ok r x →
        r.tokens = i.tokens.drop 1 ∧ 1 ≤ i.tokens.length := by
      intro i r x h
      unfold take1 at h
      split at h
      · cases h
        exact ⟨rfl, by assumption⟩
      · cases h
    have key : ∀ (p : Token → Bool) (i r x : Tokens),
        tag_token p i = PResult.ok r x → r.tokens.length < i.tokens.length := by
      intro p i r x h
      unfold tag_token at h
      split at h
      next rest0 x0 heq =>
        obtain ⟨hr, hlen⟩ := key1 _ _ _ heq
        split at h
        · cases h
        · split at h
          · cases h
            rw [hr]
            simp
            omega
          · cases h
      next => cases h
      next => cases h
    exact Prod.Lex.left _ _ (key _ _ _ _ _h1)

/-- Model of the alternation alt((parse_integer, parse_symbol, parse_list))
inside parse_list: try each parser in order, moving on only on a nom error. -/
def parse_expr (input : Tokens) : PResult Expr :=
  match parse_integer input with
  | PResult.err =>
    match parse_symbol input with
    | PResult.err => parse_list input
    | r => r
  | r => r
termination_by (input.tokens.length, 1)
decreasing_by
  · exact Prod.Lex.right _ (by omega)

/-- Model of many0(alt((parse_integer, parse_symbol, parse_list))): repeat
the alternation until it errors, collecting results.  nom aborts with a
Many0 error when the inner parser succeeds without consuming; every
alternative strictly consumes on success, so the guard is stated as strict
decrease of the remaining view (the same check for non-growing parsers) and
doubles as the termination measure. -/
def many0_expr (input : Tokens) : PResult (List Expr) :=
  match parse_expr input with
  | PResult.err => PResult.ok input []
  | PResult.panic => PResult.panic
  | PResult.ok i1 o =>
    if _h : i1.tokens.length < input.tokens.length then
      match many0_expr i1 with
      | PResult.ok i2 os => PResult.ok i2 (o :: os)
      | PResult.err => PResult.err
      | PResult.panic => PResult.panic
    else PResult.err
termination_by (input.tokens.length, 2)
decreasing_by
  · exact Prod.Lex.right _ (by omega)
  · exact Prod.Lex.left _ _ _h

end

/-- Outcome of the read entry point: val o models a normal return of the
Option value o, panic models a Rust panic raised by one of the two unwrap
calls. -/
inductive ReadResult where
  | val : Option Expr → ReadResult
  | panic : ReadResult
deriving Repr

/-- Model of read from src/parser.rs: lex the input and unwrap (panic on a
lex error), parse the token vector with parse_list and unwrap (panic on a
parse error), and return Some of the expression. -/
def read (input : String) : ReadResult :=
  match lexer input with
  | none => ReadResult.panic
  | some token_vec =>
    match parse_list (Tokens.new token_vec) with
    | PResult.ok _ expr => ReadResult.val (some expr)
    | PResult.err => ReadResult.panic
    | PResult.panic => ReadResult.panic

/-- Model of the Slice(Range(usize)) impl for Tokens: Rust slicing
self.tokens[a..b] (a panic, modelled as none, unless a <= b <= len), with
start and end shifted by the slice bounds as the impl writes them. -/
def Tokens.sliceRange (t : Tokens) (a b : Nat) : Option Tokens :=
  if a ≤ b ∧ b ≤ t.tokens.length then
    some ⟨(t.tokens.drop a).take (b - a), t.start + a, t.start + b⟩
  else none

/-- Model of the Slice(RangeFrom(usize)) impl for Tokens, exactly as written
in the source: self.slice(range.start..self.end - self.end). -/
def Tokens.sliceFrom (t : Tokens) (a : Nat) : Option Tokens :=
  t.sliceRange a (t.«end» - t.«end»)

/-- Specification-side suffix view: the intended meaning of slicing the
cursor with the from-range a.. (the suffix of the current view from a). -/
def Tokens.suffixFrom (t : Tokens) (a : Nat) : Tokens :=
  ⟨t.tokens.drop a, t.start + a, t.start + t.tokens.length⟩

/-- Specification-side scan for the matching right parenthesis: restAt ts d
walks ts at nesting depth d (at least 1) and returns the suffix of ts that
starts at the right parenthesis closing depth 1, or none when the nesting
never closes.  Atoms do not change the depth. -/
def restAt : List Token → Nat → Option (List Token)
  | [], _ => none
  | Token.LParan :: r, d => restAt r (d + 1)
  | Token.RParan :: r, d => if d ≤ 1 then some (Token.RParan :: r) else restAt r (d - 1)
  | _ :: r, d => restAt r d

/-- Specification-side predicate: the token sequence begins with a left
parenthesis whose matching right parenthesis occurs in the sequence (the
nesting depth returns to zero at some position). -/
def startsBalanced (ts : List Token) : Bool :=
  match ts with
  | Token.LParan :: r => (restAt r 1).isSome
  | _ => false

/-- Specification-side predicate for the claim wording: the parenthesis
nesting of the whole sequence is balanced (depth never goes negative and
ends at the given starting depth zero). -/
def balancedSeq : List Token → Nat → Bool
  | [], d => d == 0
  | Token.LParan :: r, d => balancedSeq r (d + 1)
  | Token.RParan :: r, d =>
    match d with
    | 0 => false
    | e + 1 => balancedSeq r e
  | _ :: r, d => balancedSeq r d

/-- Decimal digit character: 0 through 9 map to '0' through '9' (inputs of
ten or more, which the rendering never produces, fall to '9'). -/
def digitChar (d : Nat) : Char :=
  match d with
  | 0 => '0'
  | 1 => '1'
  | 2 => '2'
  | 3 => '3'
  | 4 => '4'
  | 5 => '5'
  | 6 => '6'
  | 7 => '7'
  | 8 => '8'
  | _ => '9'

/-- Decimal digit characters of a natural number, most significant first
(accumulator form). -/
def natCharsAux (n : Nat) (acc : List Char) : List Char :=
  if h : n < 10 then digitChar n :: acc
  else natCharsAux (n / 10) (digitChar (n % 10) :: acc)
termination_by n
decreasing_by
  exact Nat.div_lt_self (by omega) (by omega)

/-- Decimal digit characters of a natural number, most significant first. -/
def natChars (n : Nat) : List Char := natCharsAux n []

/-- Decimal rendering of an integer, as the claims speak of the decimal form
of n: a minus sign for negative values followed by the digits of the
absolute value. -/
def toDecimalChars (n : Int) : List Char :=
  if n < 0 then '-' :: natChars n.natAbs else natChars n.toNat

/-- Specification-side character class: every character a successful lexer
rule can consume (whitespace, parentheses, an integer sign, a digit, or a
symbol character).  A character outside this class can never be consumed,
so its presence anywhere in the input forces the all-consuming lexer to
fail. -/
def goodChar (c : Char) : Bool :=
  isMultispace c || c == '(' || c == ')' || c == '+' || c == '-' || symChar c

/-- Folding of decimal digit characters into a value, as the positive branch
of the nom i64 loop accumulates them. -/
def foldVal (a : Int) (cs : List Char) : Int :=
  cs.foldl (fun x c => x * 10 + ((c.toNat - 48 : Nat) : Int)) a

/-- Folding of decimal digit characters into a value, as the negative branch
of the nom i64 loop accumulates them (value*10 - digit). -/
def foldValNeg (a : Int) (cs : List Char) : Int :=
  cs.foldl (fun x c => x * 10 - ((c.toNat - 48 : Nat) : Int)) a

/-- Fuel-indexed twin of many0L with the same body, structurally recursive on
the fuel so that concrete inputs evaluate by kernel reduction; adequate fuel
makes it agree with many0L (theorem many0LF_eq). -/
def many0LF (f : List Char → Option (List Char × Token)) :
    Nat → List Char → Option (List Char × List Token)
  | 0, _ => none
  | fuel + 1, s =>
    match f s with
    | none => some (s, [])
    | some (s1, t) =>
      if s1.length < s.length then
        match many0LF f fuel s1 with
        | none => none
        | some (s2, ts) => some (s2, t :: ts)
      else none

mutual

/-- Fuel-indexed twin of parse_list (see many0LF). -/
def parse_listF : Nat → Tokens → PResult Expr
  | 0, _ => PResult.err
  | fuel + 1, input =>
    match tag_lparan input with
    | PResult.ok rest1 _ =>
      match many0_exprF fuel rest1 with
      | PResult.ok rest2 es =>
        match tag_rparan rest2 with
        | PResult.ok rest3 _ => PResult.ok rest3 (Expr.List es)
        | PResult.err => PResult.err
        | PResult.panic => PResult.panic
      | PResult.err => PResult.err
      | PResult.panic => PResult.panic
    | PResult.err => PResult.err
    | PResult.panic => PResult.panic

/-- Fuel-indexed twin of parse_expr (see many0LF). -/
def parse_exprF : Nat → Tokens → PResult Expr
  | 0, _ => PResult.err
  | fuel + 1, input =>
    match parse_integer input with
    | PResult.err =>
      match parse_symbol input with
      | PResult.err => parse_listF fuel input
      | r => r
    | r => r

/-- Fuel-indexed twin of many0_expr (see many0LF). -/
def many0_exprF : Nat → Tokens → PResult (List Expr)
  | 0, _ => PResult.err
  | fuel + 1, input =>
    match parse_exprF fuel input with
    | PResult.err => PResult.ok input []
    | PResult.panic => PResult.panic
    | PResult.ok i1 o =>
      if i1.tokens.length < input.tokens.length then
        match many0_exprF fuel i1 with
        | PResult.ok i2 os => PResult.ok i2 (o :: os)
        | PResult.err => PResult.err
        | PResult.panic => PResult.panic
      else PResult.err

end

/-- Fuel-indexed twin of read built from the fueled evaluators; with the
fuel chosen here it agrees with read (theorem readF_eq), and being
structurally recursive it evaluates on literals by kernel reduction. -/
def readF (input : String) : ReadResult :=
  match
    (match many0LF lexAlt (input.data.length + 1) input.data with
     | some (rest, toks) => if rest.isEmpty then some toks else none
     | none => none) with
  | none => ReadResult.panic
  | some token_vec =>
    match parse_listF (3 * token_vec.length + 3) (Tokens.new token_vec) with
    | PResult.ok _ expr => ReadResult.val (some expr)
    | PResult.err => ReadResult.panic
    | PResult.panic => ReadResult.panic

/-! Characterization lemmas for the single-token recognizers. -/

theorem take1_nil {i : Tokens} (h : i.tokens = []) : take1 i = PResult.err := by
  unfold take1
  rw [h]
  simp

theorem take1_cons {i : Tokens} {t : Token} {r : List Token} (h : i.tokens = t :: r) :
    take1 i = PResult.ok ⟨r, 0, r.length⟩ ⟨[t], 0, 1⟩ := by
  unfold take1
  rw [h]
  simp

theorem tag_token_nil {p : Token → Bool} {i : Tokens} (h : i.tokens = []) :
    tag_token p i = PResult.err := by
  unfold tag_token
  rw [take1_nil h]

theorem tag_token_cons {p : Token → Bool} {i : Tokens} {t : Token} {r : List Token}
    (h : i.tokens = t :: r) :
    tag_token p i =
      if p t then PResult.ok ⟨r, 0, r.length⟩ ⟨[t], 0, 1⟩ else PResult.err := by
  unfold tag_token
  rw [take1_cons h]

theorem tag_token_ok_spec {p : Token → Bool} {i r x : Tokens}
    (h : tag_token p i = PResult.ok r x) :
    ∃ t tl, i.tokens = t :: tl ∧ p t = true ∧ x = ⟨[t], 0, 1⟩ ∧ r = ⟨tl, 0, tl.length⟩ := by
  cases hi : i.tokens with
  | nil => rw [tag_token_nil hi] at h; cases h
  | cons t tl =>
    rw [tag_token_cons hi] at h
    by_cases hp : p t = true
    · rw [if_pos hp] at h
      injection h with h1 h2
      exact ⟨t, tl, rfl, hp, h2.symm, h1.symm⟩
    · rw [if_neg hp] at h
      cases h

theorem parse_integer_nil {i : Tokens} (h : i.tokens = []) : parse_integer i = PResult.err := by
  unfold parse_integer tag_integer
  rw [tag_token_nil h]

theorem parse_integer_cons {i : Tokens} {t : Token} {r : List Token} (h : i.tokens = t :: r) :
    parse_integer i =
      match t with
      | Token.Integer n => PResult.ok ⟨r, 0, r.length⟩ (Expr.Integer n)
      | _ => PResult.err := by
  unfold parse_integer tag_integer
  rw [tag_token_cons h]
  cases t <;> rfl

theorem parse_symbol_nil {i : Tokens} (h : i.tokens = []) : parse_symbol i = PResult.err := by
  unfold parse_symbol tag_symbol
  rw [tag_token_nil h]

theorem parse_symbol_cons {i : Tokens} {t : Token} {r : List Token} (h : i.tokens = t :: r) :
    parse_symbol i =
      match t with
      | Token.Symbol s => PResult.ok ⟨r, 0, r.length⟩ (Expr.Symbol s)
      | _ => PResult.err := by
  unfold parse_symbol tag_symbol
  rw [tag_token_cons h]
  cases t <;> rfl

theorem tag_lparan_cons {i : Tokens} {t : Token} {r : List Token} (h : i.tokens = t :: r) :
    tag_lparan i =
      match t with
      | Token.LParan => PResult.ok ⟨r, 0, r.length⟩ ⟨[Token.LParan], 0, 1⟩
      | _ => PResult.err := by
  unfold tag_lparan
  rw [tag_token_cons h]
  cases t <;> rfl

theorem tag_rparan_cons {i : Tokens} {t : Token} {r : List Token} (h : i.tokens = t :: r) :
    tag_rparan i =
      match t with
      | Token.RParan => PResult.ok ⟨r, 0, r.length⟩ ⟨[Token.RParan], 0, 1⟩
      | _ => PResult.err := by
  unfold tag_rparan
  rw [tag_token_cons h]
  cases t <;> rfl

/-! Unfolding of parse_list without the dependent match annotation. -/

theorem parse_list_unfold (i : Tokens) :
    parse_list i =
      match tag_lparan i with
      | PResult.ok rest1 _ =>
        match many0_expr rest1 with
        | PResult.ok rest2 es =>
          match tag_rparan rest2 with
          | PResult.ok rest3 _ => PResult.ok rest3 (Expr.List es)
          | PResult.err => PResult.err
          | PResult.panic => PResult.panic
        | PResult.err => PResult.err
        | PResult.panic => PResult.panic
      | PResult.err => PResult.err
      | PResult.panic => PResult.panic := by
  rw [parse_list.eq_def]
  split <;> (rename_i heq; rw [heq])

theorem parse_list_nil {i : Tokens} (h : i.tokens = []) : parse_list i = PResult.err := by
  rw [parse_list_unfold]
  unfold tag_lparan
  rw [tag_token_nil h]

theorem parse_list_lparan {i : Tokens} {r : List Token} (h : i.tokens = Token.LParan :: r) :
    parse_list i =
      match many0_expr ⟨r, 0, r.length⟩ with
      | PResult.ok rest2 es =>
        match tag_rparan rest2 with
        | PResult.ok rest3 _ => PResult.ok rest3 (Expr.List es)
        | PResult.err => PResult.err
        | PResult.panic => PResult.panic
      | PResult.err => PResult.err
      | PResult.panic => PResult.panic := by
  rw [parse_list_unfold, tag_lparan_cons h]

theorem parse_list_cons_other {i : Tokens} {t : Token} {r : List Token}
    (h : i.tokens = t :: r) (ht : t ≠ Token.LParan) : parse_list i = PResult.err := by
  rw [parse_list_unfold, tag_lparan_cons h]
  cases t with
  | LParan => exact absurd rfl ht
  | RParan => rfl
  | Integer n => rfl
  | Symbol s => rfl

/-! Behavior of the expr alternation by head token. -/

theorem parse_expr_nil {i : Tokens} (h : i.tokens = []) : parse_expr i = PResult.err := by
  rw [parse_expr.eq_def, parse_integer_nil h, parse_symbol_nil h]
  exact parse_list_nil h

theorem parse_expr_integer {i : Tokens} {n : Int} {r : List Token}
    (h : i.tokens = Token.Integer n :: r) :
    parse_expr i = PResult.ok ⟨r, 0, r.length⟩ (Expr.Integer n) := by
  rw [parse_expr.eq_def, parse_integer_cons h]

theorem parse_expr_symbol {i : Tokens} {s : String} {r : List Token}
    (h : i.tokens = Token.Symbol s :: r) :
    parse_expr i = PResult.ok ⟨r, 0, r.length⟩ (Expr.Symbol s) := by
  rw [parse_expr.eq_def, parse_integer_cons h, parse_symbol_cons h]

theorem parse_expr_rparan {i : Tokens} {r : List Token}
    (h : i.tokens = Token.RParan :: r) : parse_expr i = PResult.err := by
  rw [parse_expr.eq_def, parse_integer_cons h, parse_symbol_cons h]
  exact parse_list_cons_other h (by intro hc; cases hc)

theorem parse_expr_lparan {i : Tokens} {r : List Token}
    (h : i.tokens = Token.LParan :: r) : parse_expr i = parse_list i := by
  rw [parse_expr.eq_def, parse_integer_cons h, parse_symbol_cons h]

/-! Adequacy of the fuel-indexed twins. -/

theorem many0LF_eq (f : List Char → Option (List Char × Token)) :
    ∀ fuel s, s.length < fuel → many0LF f fuel s = many0L f s := by
  intro fuel
  induction fuel with
  | zero => intro s h; omega
  | succ k ih =>
    intro s h
    rw [many0L.eq_def]
    show (match f s with
      | none => some (s, [])
      | some (s1, t) =>
        if s1.length < s.length then
          match many0LF f k s1 with
          | none => none
          | some (s2, ts) => some (s2, t :: ts)
        else none) = _
    cases hf : f s with
    | none => rfl
    | some p =>
      obtain ⟨s1, t⟩ := p
      dsimp only
      by_cases hlt : s1.length < s.length
      · rw [if_pos hlt, dif_pos hlt, ih s1 (by omega)]
      · rw [if_neg hlt, dif_neg hlt]

theorem parseF_eq : ∀ fuel : Nat,
    (∀ input : Tokens, 3 * input.tokens.length + 1 ≤ fuel →
      parse_listF fuel input = parse_list input) ∧
    (∀ input : Tokens, 3 * input.tokens.length + 2 ≤ fuel →
      parse_exprF fuel input = parse_expr input) ∧
    (∀ input : Tokens, 3 * input.tokens.length + 3 ≤ fuel →
      many0_exprF fuel input = many0_expr input) := by
  intro fuel
  induction fuel with
  | zero => refine ⟨?_, ?_, ?_⟩ <;> (intro input h; omega)
  | succ k ih =>
    refine ⟨?_, ?_, ?_⟩
    · intro input h
      rw [parse_listF, parse_list_unfold]
      cases htag : tag_lparan input with
      | ok rest1 x =>
        obtain ⟨t, tl, hi, hp, hx, hr⟩ := tag_token_ok_spec htag
        have hlen : rest1.tokens.length + 1 = input.tokens.length := by
          rw [hr, hi]
          simp
        dsimp only
        rw [ih.2.2 rest1 (by omega)]
      | err => rfl
      | panic => rfl
    · intro input h
      rw [parse_exprF, parse_expr.eq_def]
      cases hpi : parse_integer input with
      | err =>
        cases hps : parse_symbol input with
        | err => exact ih.1 input (by omega)
        | ok r o => rfl
        | panic => rfl
      | ok r o => rfl
      | panic => rfl
    · intro input h
      rw [many0_exprF, many0_expr.eq_def, ih.2.1 input (by omega)]
      cases hpe : parse_expr input with
      | err => rfl
      | panic => rfl
      | ok i1 o =>
        dsimp only
        by_cases hlt : i1.tokens.length < input.tokens.length
        · rw [if_pos hlt, dif_pos hlt, ih.2.2 i1 (by omega)]
        · rw [if_neg hlt, dif_neg hlt]

theorem readF_eq (input : String) : readF input = read input := by
  unfold readF Tasks.read lexer
  rw [many0LF_eq lexAlt (input.data.length + 1) input.data (by omega)]
  cases hm : many0L lexAlt input.data with
  | none => rfl
  | some p =>
    obtain ⟨rest, toks⟩ := p
    dsimp only
    by_cases hre : rest.isEmpty
    · rw [if_pos hre]
      dsimp only
      rw [(parseF_eq (3 * toks.length + 3)).1 (Tokens.new toks) (by simp [Tokens.new])]
    · rw [if_neg hre]

/-- Helper for evaluating the lexer on literals through the fueled twin. -/
theorem lexer_eval (s : String) :
    lexer s =
      match many0LF lexAlt (s.data.length + 1) s.data with
      | some (rest, toks) => if rest.isEmpty then some toks else none
      | none => none := by
  unfold lexer
  rw [many0LF_eq lexAlt (s.data.length + 1) s.data (by omega)]

/-- C1: for each of the spec's concrete scenarios, read returns the stated
tree: read of the empty list, a one-integer list, a symbol-integer list, a
symbol and two integers, and a nested list all yield the corresponding
Expr::List trees. -/
theorem c1_read_scenarios :
    Tasks.read "()" = ReadResult.val (some (Expr.List [])) ∧
    Tasks.read "(42)" = ReadResult.val (some (Expr.List [Expr.Integer 42])) ∧
    Tasks.read "(the_number 42)" =
      ReadResult.val (some (Expr.List [Expr.Symbol "the_number", Expr.Integer 42])) ∧
    Tasks.read "(plus 40 2)" =
      ReadResult.val (some (Expr.List [Expr.Symbol "plus", Expr.Integer 40, Expr.Integer 2])) ∧
    Tasks.read "(( 42) )" =
      ReadResult.val (some (Expr.List [Expr.List [Expr.Integer 42]])) :=
  ⟨(readF_eq "()").symm.trans rfl,
   (readF_eq "(42)").symm.trans rfl,
   (readF_eq "(the_number 42)").symm.trans rfl,
   (readF_eq "(plus 40 2)").symm.trans rfl,
   (readF_eq "(( 42) )").symm.trans rfl⟩

/-- C2, counterexample: the input 42 is well-formed (it lexes to the single
token Integer 42), yet read does not return Expr::Integer 42: it panics,
because the top-level parser is parse_list, not the full expr alternation. -/
theorem c2_counterexample :
    lexer "42" = some [Token.Integer 42] ∧ Tasks.read "42" = ReadResult.panic :=
  ⟨(lexer_eval "42").trans rfl, (readF_eq "42").symm.trans rfl⟩

/-- C2, amended: read parses one top-level list, not a general expr; a bare
integer or symbol is accepted by the element alternation inside a list but
rejected by the top-level parse_list, so read on such input panics. -/
theorem c2_amended (n : Int) (s : String) :
    parse_list (Tokens.new [Token.Integer n]) = PResult.err ∧
    parse_list (Tokens.new [Token.Symbol s]) = PResult.err ∧
    parse_expr (Tokens.new [Token.Integer n]) = PResult.ok ⟨[], 0, 0⟩ (Expr.Integer n) ∧
    parse_expr (Tokens.new [Token.Symbol s]) = PResult.ok ⟨[], 0, 0⟩ (Expr.Symbol s) ∧
    Tasks.read "42" = ReadResult.panic := by
  refine ⟨?_, ?_, ?_, ?_, (readF_eq "42").symm.trans rfl⟩
  · exact parse_list_cons_other rfl (by intro h; cases h)
  · exact parse_list_cons_other rfl (by intro h; cases h)
  · exact parse_expr_integer rfl
  · exact parse_expr_symbol rfl

/-- C7: read panics whenever the lexer fails or parse_list fails (both
unwrap calls), and on success returns Some of the parsed tree as a normal
value. -/
theorem c7_read_abort_behavior (s : String) :
    (lexer s = none → Tasks.read s = ReadResult.panic) ∧
    (∀ toks, lexer s = some toks → parse_list (Tokens.new toks) = PResult.err →
      Tasks.read s = ReadResult.panic) ∧
    (∀ toks, lexer s = some toks → parse_list (Tokens.new toks) = PResult.panic →
      Tasks.read s = ReadResult.panic) ∧
    (∀ toks rest e, lexer s = some toks → parse_list (Tokens.new toks) = PResult.ok rest e →
      Tasks.read s = ReadResult.val (some e)) := by
  refine ⟨?_, ?_, ?_, ?_⟩
  · intro h
    unfold Tasks.read
    rw [h]
  · intro toks h1 h2
    unfold Tasks.read
    rw [h1]
    dsimp only
    rw [h2]
  · intro toks h1 h2
    unfold Tasks.read
    rw [h1]
    dsimp only
    rw [h2]
  · intro toks rest e h1 h2
    unfold Tasks.read
    rw [h1]
    dsimp only
    rw [h2]

/-- C7, witness: on the input (4.2) the lexer fails, and read indeed
panics. -/
theorem c7_witness : lexer "(4.2)" = none ∧ Tasks.read "(4.2)" = ReadResult.panic := by
  have hl : lexer "(4.2)" = none := (lexer_eval "(4.2)").trans rfl
  exact ⟨hl, (c7_read_abort_behavior "(4.2)").1 hl⟩

/-- C8: evaluation of the Slice(RangeFrom) impl at a failing input.  With
one token in view, slicing with the from-range 0.. yields the empty view
(not the full view the claim states), because the impl computes
range.start..self.end - self.end, and slicing with 1.. panics (range 1..0),
while the intended suffix view of 0.. is the full cursor. -/
theorem c8_slice_from_eval :
    Tokens.sliceFrom (Tokens.new [Token.Integer 42]) 0 = some ⟨[], 0, 0⟩ ∧
    Tokens.sliceFrom (Tokens.new [Token.Integer 42]) 1 = none ∧
    Tokens.suffixFrom (Tokens.new [Token.Integer 42]) 0 = Tokens.new [Token.Integer 42] :=
  ⟨rfl, rfl, rfl⟩

/-- C9: whenever tag_integer succeeds its one-token view holds an Integer
token, whenever tag_symbol succeeds its view holds a Symbol token, and
parse_integer and parse_symbol never reach their unreachable! arms (they
never panic on any cursor). -/
theorem c9_recognizers_no_panic (t : Tokens) :
    (∀ rest x, tag_integer t = PResult.ok rest x → ∃ n, x.tokens = [Token.Integer n]) ∧
    (∀ rest x, tag_symbol t = PResult.ok rest x → ∃ s, x.tokens = [Token.Symbol s]) ∧
    parse_integer t ≠ PResult.panic ∧ parse_symbol t ≠ PResult.panic := by
  refine ⟨?_, ?_, ?_, ?_⟩
  · intro rest x h
    unfold tag_integer at h
    obtain ⟨tok, tl, hi, hp, hx, hr⟩ := tag_token_ok_spec h
    cases tok with
    | Integer n => exact ⟨n, by rw [hx]⟩
    | LParan => cases hp
    | RParan => cases hp
    | Symbol s => cases hp
  · intro rest x h
    unfold tag_symbol at h
    obtain ⟨tok, tl, hi, hp, hx, hr⟩ := tag_token_ok_spec h
    cases tok with
    | Symbol s => exact ⟨s, by rw [hx]⟩
    | LParan => cases hp
    | RParan => cases hp
    | Integer n => cases hp
  · cases ht : t.tokens with
    | nil => rw [parse_integer_nil ht]; intro h; cases h
    | cons tok r =>
      rw [parse_integer_cons ht]
      cases tok <;> intro h <;> cases h
  · cases ht : t.tokens with
    | nil => rw [parse_symbol_nil ht]; intro h; cases h
    | cons tok r =>
      rw [parse_symbol_cons ht]
      cases tok <;> intro h <;> cases h

/-- C9, witness: tag_integer succeeds on a one-Integer cursor and the
recognized view indeed holds an Integer token. -/
theorem c9_witness :
    tag_integer (Tokens.new [Token.Integer 5]) =
      PResult.ok ⟨[], 0, 0⟩ ⟨[Token.Integer 5], 0, 1⟩ ∧
    ∃ n, (⟨[Token.Integer 5], 0, 1⟩ : Tokens).tokens = [Token.Integer n] :=
  ⟨rfl, (c9_recognizers_no_panic (Tokens.new [Token.Integer 5])).1 ⟨[], 0, 0⟩ _ rfl⟩

/-- C10: read never returns None: whenever it returns a value at all (does
not panic), that value is Some of an expression. -/
theorem c10_read_never_none (s : String) (o : Option Expr)
    (h : Tasks.read s = ReadResult.val o) : ∃ e, o = some e := by
  unfold Tasks.read at h
  cases hl : lexer s with
  | none => rw [hl] at h; cases h
  | some toks =>
    rw [hl] at h
    dsimp only at h
    cases hp : parse_list (Tokens.new toks) with
    | ok rest e =>
      rw [hp] at h
      injection h with h1
      exact ⟨e, h1.symm⟩
    | err => rw [hp] at h; cases h
    | panic => rw [hp] at h; cases h

/-- C10, witness: read on the empty list input returns Some of the empty
list tree, which is indeed a Some value. -/
theorem c10_witness :
    Tasks.read "()" = ReadResult.val (some (Expr.List [])) ∧
    ∃ e, (some (Expr.List []) : Option Expr) = some e := by
  have h : Tasks.read "()" = ReadResult.val (some (Expr.List [])) :=
    (readF_eq "()").symm.trans rfl
  exact ⟨h, c10_read_never_none "()" _ h⟩

/-! Facts about the matching-parenthesis scan restAt. -/

theorem restAt_rparan (r : List Token) (d : Nat) :
    restAt (Token.RParan :: r) d =
      if d ≤ 1 then some (Token.RParan :: r) else restAt r (d - 1) := rfl

theorem restAt_shape : ∀ (l : List Token) (d : Nat) (v : List Token),
    restAt l d = some v → ∃ u, v = Token.RParan :: u := by
  intro l
  induction l with
  | nil => intro d v h; cases h
  | cons t r ih =>
    intro d v h
    cases t with
    | LParan => exact ih _ _ h
    | RParan =>
      rw [restAt_rparan] at h
      by_cases hd : d ≤ 1
      · rw [if_pos hd] at h
        injection h with h1
        exact ⟨r, h1.symm⟩
      · rw [if_neg hd] at h
        exact ih _ _ h
    | Integer m => exact ih _ _ h
    | Symbol s => exact ih _ _ h

theorem restAt_len : ∀ (l : List Token) (d : Nat) (v : List Token),
    restAt l d = some v → v.length ≤ l.length := by
  intro l
  induction l with
  | nil => intro d v h; cases h
  | cons t r ih =>
    intro d v h
    have step : ∀ e, restAt r e = some v → v.length ≤ (t :: r).length := by
      intro e he
      have := ih e v he
      simp only [List.length_cons]
      omega
    cases t with
    | LParan => exact step _ h
    | RParan =>
      rw [restAt_rparan] at h
      by_cases hd : d ≤ 1
      · rw [if_pos hd] at h
        injection h with h1
        rw [← h1]
      · rw [if_neg hd] at h
        exact step _ h
    | Integer m => exact step _ h
    | Symbol s => exact step _ h

theorem restAt_depth : ∀ (n : Nat) (l : List Token) (d : Nat), l.length ≤ n → 1 ≤ d →
    restAt l (d + 1) = (restAt l 1).bind (fun v => restAt v.tail d) := by
  intro n
  induction n with
  | zero =>
    intro l d hl _
    have : l = [] := by
      cases l with
      | nil => rfl
      | cons t r => simp at hl
    subst this
    rfl
  | succ k ih =>
    intro l d hl hd
    cases l with
    | nil => rfl
    | cons t r =>
      have hr : r.length ≤ k := by
        simp only [List.length_cons] at hl
        omega
      cases t with
      | Integer m => exact ih r d hr hd
      | Symbol s => exact ih r d hr hd
      | RParan =>
        show (if d + 1 ≤ 1 then some (Token.RParan :: r) else restAt r (d + 1 - 1)) = _
        rw [if_neg (by omega)]
        rfl
      | LParan =>
        have h1 := ih r (d + 1) hr (by omega)
        have h2 := ih r 1 hr le_rfl
        show restAt r (d + 1 + 1) = (restAt r (1 + 1)).bind (fun v => restAt v.tail d)
        rw [h1, h2]
        cases hv : restAt r 1 with
        | none => rfl
        | some v =>
          show restAt v.tail (d + 1) = (restAt v.tail 1).bind (fun w => restAt w.tail d)
          have hvlen := restAt_len r 1 v hv
          have htail : v.tail.length ≤ v.length := by
            cases v <;> simp
          exact ih v.tail d (by omega) hd

/-- Main characterization of the token parser against the matching-scan:
many0 of the expr alternation consumes tokens up to the matching right
parenthesis (or up to a stop position at end-of-view or an unclosed nested
list), and parse_list succeeds exactly up to and including the matching
right parenthesis. -/
theorem parse_main : ∀ (n : Nat) (l : List Token), l.length ≤ n →
    ((∀ v, restAt l 1 = some v →
        ∃ es, many0_expr (Tokens.new l) = PResult.ok (Tokens.new v) es) ∧
     (restAt l 1 = none →
        ∃ l2 es, many0_expr (Tokens.new l) = PResult.ok (Tokens.new l2) es ∧
          (l2 = [] ∨ ∃ r2, l2 = Token.LParan :: r2)) ∧
     (∀ r, l = Token.LParan :: r →
        (∀ u, restAt r 1 = some (Token.RParan :: u) →
           ∃ es, parse_list (Tokens.new l) = PResult.ok (Tokens.new u) (Expr.List es)) ∧
        (restAt r 1 = none → parse_list (Tokens.new l) = PResult.err))) := by
  intro n
  induction n with
  | zero =>
    intro l hl
    have : l = [] := by
      cases l with
      | nil => rfl
      | cons t r => simp at hl
    subst this
    refine ⟨?_, ?_, ?_⟩
    · intro v hv
      cases hv
    · intro _
      refine ⟨[], [], ?_, Or.inl rfl⟩
      rw [many0_expr.eq_def, parse_expr_nil rfl]
    · intro r hr
      cases hr
  | succ k ih =>
    intro l hl
    have hlist : ∀ r, l = Token.LParan :: r →
        (∀ u, restAt r 1 = some (Token.RParan :: u) →
           ∃ es, parse_list (Tokens.new l) = PResult.ok (Tokens.new u) (Expr.List es)) ∧
        (restAt r 1 = none → parse_list (Tokens.new l) = PResult.err) := by
      intro r hr
      subst hr
      have hrk : r.length ≤ k := by
        simp only [List.length_cons] at hl
        omega
      constructor
      · intro u hu
        obtain ⟨es, hm⟩ := (ih r hrk).1 (Token.RParan :: u) hu
        refine ⟨es, ?_⟩
        rw [parse_list_lparan rfl]
        rw [show (⟨r, 0, r.length⟩ : Tokens) = Tokens.new r from rfl, hm]
        dsimp only
        rw [@tag_rparan_cons (Tokens.new (Token.RParan :: u)) Token.RParan u rfl]
        rfl
      · intro hnone
        obtain ⟨l2, es, hm, hshape⟩ := (ih r hrk).2.1 hnone
        rw [parse_list_lparan rfl]
        rw [show (⟨r, 0, r.length⟩ : Tokens) = Tokens.new r from rfl, hm]
        dsimp only
        rcases hshape with rfl | ⟨r2, rfl⟩
        · rw [show tag_rparan (Tokens.new []) = PResult.err from by
            unfold tag_rparan
            exact tag_token_nil rfl]
        · rw [@tag_rparan_cons (Tokens.new (Token.LParan :: r2)) Token.LParan r2 rfl]
    refine ⟨?_, ?_, hlist⟩
    · -- many0 consumes up to the matching right parenthesis
      cases l with
      | nil =>
        intro v hv
        cases hv
      | cons t r =>
        have hrk : r.length ≤ k := by
          simp only [List.length_cons] at hl
          omega
        cases t with
        | Integer m =>
          intro v hv
          obtain ⟨es, hm⟩ := (ih r hrk).1 v hv
          refine ⟨Expr.Integer m :: es, ?_⟩
          rw [many0_expr.eq_def, parse_expr_integer rfl]
          dsimp only
          rw [dif_pos (by simp [Tokens.new]),
            show (⟨r, 0, r.length⟩ : Tokens) = Tokens.new r from rfl, hm]
        | Symbol s =>
          intro v hv
          obtain ⟨es, hm⟩ := (ih r hrk).1 v hv
          refine ⟨Expr.Symbol s :: es, ?_⟩
          rw [many0_expr.eq_def, parse_expr_symbol rfl]
          dsimp only
          rw [dif_pos (by simp [Tokens.new]),
            show (⟨r, 0, r.length⟩ : Tokens) = Tokens.new r from rfl, hm]
        | RParan =>
          intro v hv
          have hv' : some (Token.RParan :: r) = some v := hv
          injection hv' with hv2
          subst hv2
          refine ⟨[], ?_⟩
          rw [many0_expr.eq_def, parse_expr_rparan rfl]
        | LParan =>
          have hdepth : restAt (Token.LParan :: r) 1 =
              (restAt r 1).bind (fun v => restAt v.tail 1) :=
            restAt_depth k r 1 hrk le_rfl
          obtain ⟨hl1, hl2⟩ := hlist r rfl
          intro v hv
          rw [hdepth] at hv
          cases hr1 : restAt r 1 with
          | none => rw [hr1] at hv; cases hv
          | some w =>
            rw [hr1] at hv
            obtain ⟨u, rfl⟩ := restAt_shape r 1 w hr1
            have hu : restAt u 1 = some v := hv
            obtain ⟨es0, hpl⟩ := hl1 u hr1
            have hulen : u.length ≤ k := by
              have := restAt_len r 1 _ hr1
              simp only [List.length_cons] at this
              omega
            obtain ⟨es, hm⟩ := (ih u hulen).1 v hu
            refine ⟨Expr.List es0 :: es, ?_⟩
            rw [many0_expr.eq_def, parse_expr_lparan rfl, hpl]
            dsimp only
            rw [dif_pos (by
              simp only [Tokens.new]
              have := restAt_len r 1 _ hr1
              simp only [List.length_cons] at this ⊢
              omega), hm]
    · -- many0 on a view with no matching close stops at end or at an
      -- unclosed nested list
      cases l with
      | nil =>
        intro _
        refine ⟨[], [], ?_, Or.inl rfl⟩
        rw [many0_expr.eq_def, parse_expr_nil rfl]
      | cons t r =>
        have hrk : r.length ≤ k := by
          simp only [List.length_cons] at hl
          omega
        cases t with
        | Integer m =>
          intro ha
          obtain ⟨l2, es, hm, hshape⟩ := (ih r hrk).2.1 ha
          refine ⟨l2, Expr.Integer m :: es, ?_, hshape⟩
          rw [many0_expr.eq_def, parse_expr_integer rfl]
          dsimp only
          rw [dif_pos (by simp [Tokens.new]),
            show (⟨r, 0, r.length⟩ : Tokens) = Tokens.new r from rfl, hm]
        | Symbol s =>
          intro ha
          obtain ⟨l2, es, hm, hshape⟩ := (ih r hrk).2.1 ha
          refine ⟨l2, Expr.Symbol s :: es, ?_, hshape⟩
          rw [many0_expr.eq_def, parse_expr_symbol rfl]
          dsimp only
          rw [dif_pos (by simp [Tokens.new]),
            show (⟨r, 0, r.length⟩ : Tokens) = Tokens.new r from rfl, hm]
        | RParan =>
          intro hnone
          have hsome : restAt (Token.RParan :: r) 1 = some (Token.RParan :: r) := rfl
          rw [hsome] at hnone
          cases hnone
        | LParan =>
          have hdepth : restAt (Token.LParan :: r) 1 =
              (restAt r 1).bind (fun v => restAt v.tail 1) :=
            restAt_depth k r 1 hrk le_rfl
          obtain ⟨hl1, hl2⟩ := hlist r rfl
          intro ha
          rw [hdepth] at ha
          cases hr1 : restAt r 1 with
          | none =>
            refine ⟨Token.LParan :: r, [], ?_, Or.inr ⟨r, rfl⟩⟩
            rw [many0_expr.eq_def, parse_expr_lparan rfl, hl2 hr1]
          | some w =>
            rw [hr1] at ha
            obtain ⟨u, rfl⟩ := restAt_shape r 1 w hr1
            have hu : restAt u 1 = none := ha
            obtain ⟨es0, hpl⟩ := hl1 u hr1
            have hulen : u.length ≤ k := by
              have := restAt_len r 1 _ hr1
              simp only [List.length_cons] at this
              omega
            obtain ⟨l2, es, hm, hshape⟩ := (ih u hulen).2.1 hu
            refine ⟨l2, Expr.List es0 :: es, ?_, hshape⟩
            rw [many0_expr.eq_def, parse_expr_lparan rfl, hpl]
            dsimp only
            rw [dif_pos (by
              simp only [Tokens.new]
              have := restAt_len r 1 _ hr1
              simp only [List.length_cons] at this ⊢
              omega), hm]

/-- C4, counterexample: the token sequence of the text ()) is producible
from well-formed text, starts with LeftParen and has unbalanced parenthesis
nesting as a whole sequence (an extra closer), yet parse_list succeeds on
it, returning the empty list and leaving the extra RightParen unconsumed.
The claimed iff with whole-sequence balance is therefore false. -/
theorem c4_counterexample :
    lexer "())" = some [Token.LParan, Token.RParan, Token.RParan] ∧
    balancedSeq [Token.LParan, Token.RParan, Token.RParan] 0 = false ∧
    parse_list (Tokens.new [Token.LParan, Token.RParan, Token.RParan]) =
      PResult.ok ⟨[Token.RParan], 0, 1⟩ (Expr.List []) := by
  refine ⟨(lexer_eval "())").trans rfl, rfl, ?_⟩
  rw [← (parseF_eq 10).1 (Tokens.new [Token.LParan, Token.RParan, Token.RParan])
    (by simp [Tokens.new])]
  rfl

/-- C4, amended: parsing a token sequence T as a list succeeds if and only
if T starts with LeftParen and the opening parenthesis has a matching
RightParen within T (the nesting depth returns to zero); tokens after the
matching close are left unconsumed and do not affect success.  When this
condition fails the list parser returns a plain error (no partial tree, no
panic). -/
theorem c4_amended (T : List Token) :
    ((∃ rest es, parse_list (Tokens.new T) = PResult.ok rest (Expr.List es)) ↔
      startsBalanced T = true) ∧
    (startsBalanced T = false → parse_list (Tokens.new T) = PResult.err) := by
  have main := parse_main T.length T le_rfl
  constructor
  · constructor
    · rintro ⟨rest, es, hok⟩
      cases T with
      | nil => rw [parse_list_nil rfl] at hok; cases hok
      | cons t r =>
        cases t with
        | LParan =>
          cases hrr : restAt r 1 with
          | some w => simp [startsBalanced, hrr]
          | none =>
            rw [(main.2.2 r rfl).2 hrr] at hok
            cases hok
        | RParan =>
          rw [parse_list_cons_other rfl (by intro hh; cases hh)] at hok
          cases hok
        | Integer m =>
          rw [parse_list_cons_other rfl (by intro hh; cases hh)] at hok
          cases hok
        | Symbol s =>
          rw [parse_list_cons_other rfl (by intro hh; cases hh)] at hok
          cases hok
    · intro hb
      cases T with
      | nil => cases hb
      | cons t r =>
        cases t with
        | LParan =>
          have hsome : (restAt r 1).isSome = true := hb
          obtain ⟨w, hw⟩ := Option.isSome_iff_exists.mp hsome
          obtain ⟨u, rfl⟩ := restAt_shape r 1 w hw
          obtain ⟨es, hok⟩ := (main.2.2 r rfl).1 u hw
          exact ⟨Tokens.new u, es, hok⟩
        | RParan => cases hb
        | Integer m => cases hb
        | Symbol s => cases hb
  · intro hb
    cases T with
    | nil => exact parse_list_nil rfl
    | cons t r =>
      cases t with
      | LParan =>
        have hn : restAt r 1 = none := by
          cases hrr : restAt r 1 with
          | none => rfl
          | some w => simp [startsBalanced, hrr] at hb
        exact (main.2.2 r rfl).2 hn
      | RParan => exact parse_list_cons_other rfl (by intro hh; cases hh)
      | Integer m => exact parse_list_cons_other rfl (by intro hh; cases hh)
      | Symbol s => exact parse_list_cons_other rfl (by intro hh; cases hh)

/-- C4, witness: a closing parenthesis right after the opening one is
balanced and parses, while a lone RightParen is not balanced and the parser
errs. -/
theorem c4_witness :
    startsBalanced [Token.LParan, Token.RParan] = true ∧
    (∃ rest es, parse_list (Tokens.new [Token.LParan, Token.RParan]) =
      PResult.ok rest (Expr.List es)) ∧
    startsBalanced [Token.RParan] = false ∧
    parse_list (Tokens.new [Token.RParan]) = PResult.err :=
  ⟨rfl, (c4_amended [Token.LParan, Token.RParan]).1.mpr rfl, rfl,
    (c4_amended [Token.RParan]).2 rfl⟩

/-! Inversion lemmas for the single lexer rules. -/

theorem lex_lparan_spec {s s1 : List Char} {t : Token} (h : lex_lparan s = some (s1, t)) :
    t = Token.LParan ∧ multispace0 s = '(' :: s1 := by
  unfold lex_lparan at h
  split at h
  next r heq =>
    injection h with h1
    injection h1 with h2 h3
    subst h2
    exact ⟨h3.symm, heq⟩
  next => cases h

theorem lex_rparan_spec {s s1 : List Char} {t : Token} (h : lex_rparan s = some (s1, t)) :
    t = Token.RParan ∧ multispace0 s = ')' :: s1 := by
  unfold lex_rparan at h
  split at h
  next r heq =>
    injection h with h1
    injection h1 with h2 h3
    subst h2
    exact ⟨h3.symm, heq⟩
  next => cases h

theorem lex_integer_spec {s s1 : List Char} {t : Token} (h : lex_integer s = some (s1, t)) :
    ∃ v, t = Token.Integer v ∧ nomI64 (multispace0 s) = some (s1, v) := by
  unfold lex_integer at h
  split at h
  next r v heq =>
    injection h with h1
    injection h1 with h2 h3
    exact ⟨v, h3.symm, by rw [heq, h2]⟩
  next => cases h

theorem lex_symbol_spec {s s1 : List Char} {t : Token} (h : lex_symbol s = some (s1, t)) :
    ((multispace0 s).takeWhile symChar).isEmpty = false ∧
    t = Token.Symbol (String.mk ((multispace0 s).takeWhile symChar)) ∧
    s1 = (multispace0 s).dropWhile symChar := by
  unfold lex_symbol at h
  dsimp only at h
  split at h
  next he => cases h
  next he =>
    injection h with h1
    injection h1 with h2 h3
    exact ⟨by simpa using he, h3.symm, h2.symm⟩

theorem i64Digits_consumed : ∀ (cs : List Char) (neg : Bool) (acc : Int) (pos : Nat)
    (s1 : List Char) (v : Int), i64Digits neg acc pos cs = some (s1, v) →
    ∃ pre, cs = pre ++ s1 ∧ ∀ c ∈ pre, c.isDigit = true := by
  intro cs
  induction cs with
  | nil =>
    intro neg acc pos s1 v h
    unfold i64Digits at h
    injection h with h1
    injection h1 with h2 h3
    exact ⟨[], by rw [← h2]; rfl, by intro c hc; cases hc⟩
  | cons c r ih =>
    intro neg acc pos s1 v h
    unfold i64Digits at h
    by_cases hd : c.isDigit = true
    · rw [if_pos hd] at h
      dsimp only at h
      have step : i64Digits neg (if neg then acc * 10 - ((c.toNat - 48 : Nat) : Int)
          else acc * 10 + ((c.toNat - 48 : Nat) : Int)) (pos + 1) r = some (s1, v) := by
        split at h
        · split at h
          · cases h
          · rw [if_pos (by assumption)]
            exact h
        · split at h
          · cases h
          · rw [if_neg (by assumption)]
            exact h
      obtain ⟨pre, hp, hdig⟩ := ih _ _ _ _ _ step
      refine ⟨c :: pre, by rw [hp]; rfl, ?_⟩
      intro x hx
      rcases List.mem_cons.mp hx with rfl | hx
      · exact hd
      · exact hdig x hx
    · rw [if_neg hd] at h
      split at h
      · cases h
      · injection h with h1
        injection h1 with h2 h3
        exact ⟨[], by rw [← h2]; rfl, by intro x hx; cases hx⟩

theorem nomI64_consumed {s s1 : List Char} {v : Int} (h : nomI64 s = some (s1, v)) :
    ∃ pre, s = pre ++ s1 ∧ ∀ c ∈ pre, (c.isDigit = true ∨ c = '+' ∨ c = '-') := by
  unfold nomI64 at h
  dsimp only at h
  split at h
  next => cases h
  next hne =>
    split at h
    next r =>
      dsimp only at h
      obtain ⟨pre, hp, hdig⟩ := i64Digits_consumed _ _ _ _ _ _ h
      refine ⟨'+' :: pre, by rw [hp]; rfl, ?_⟩
      intro x hx
      rcases List.mem_cons.mp hx with rfl | hx
      · exact Or.inr (Or.inl rfl)
      · exact Or.inl (hdig x hx)
    next r =>
      dsimp only at h
      obtain ⟨pre, hp, hdig⟩ := i64Digits_consumed _ _ _ _ _ _ h
      refine ⟨'-' :: pre, by rw [hp]; rfl, ?_⟩
      intro x hx
      rcases List.mem_cons.mp hx with rfl | hx
      · exact Or.inr (Or.inr rfl)
      · exact Or.inl (hdig x hx)
    next =>
      dsimp only at h
      obtain ⟨pre, hp, hdig⟩ := i64Digits_consumed _ _ _ _ _ _ h
      exact ⟨pre, hp, fun x hx => Or.inl (hdig x hx)⟩

/-! Character-class facts feeding the all-or-nothing lexing argument. -/

theorem goodChar_of_multispace {c : Char} (h : isMultispace c = true) : goodChar c = true := by
  unfold goodChar
  rw [h]
  rfl

theorem goodChar_of_digit {c : Char} (h : c.isDigit = true) : goodChar c = true := by
  unfold goodChar symChar rustIsAlphanumeric Char.isAlphanum
  simp [h]

theorem goodChar_of_symChar {c : Char} (h : symChar c = true) : goodChar c = true := by
  unfold goodChar
  rw [h]
  simp

theorem multispace0_split (s : List Char) :
    s = s.takeWhile isMultispace ++ multispace0 s :=
  (List.takeWhile_append_dropWhile isMultispace s).symm

theorem lexAlt_consumed {s s1 : List Char} {t : Token} (h : lexAlt s = some (s1, t)) :
    ∃ pre, s = pre ++ s1 ∧ ∀ c ∈ pre, goodChar c = true := by
  have hws : ∀ c ∈ s.takeWhile isMultispace, goodChar c = true := by
    intro c hc
    exact goodChar_of_multispace (List.mem_takeWhile_imp hc)
  unfold lexAlt at h
  cases h1 : lex_lparan s with
  | some p =>
    rw [h1] at h
    injection h with h2
    subst h2
    obtain ⟨ht, hms⟩ := lex_lparan_spec h1
    refine ⟨s.takeWhile isMultispace ++ ['('], ?_, ?_⟩
    · rw [List.append_assoc]
      rw [show ['('] ++ s1 = '(' :: s1 from rfl, ← hms]
      exact multispace0_split s
    · intro c hc
      rcases List.mem_append.mp hc with hc | hc
      · exact hws c hc
      · rcases List.mem_singleton.mp hc with rfl
        rfl
  | none =>
    rw [h1] at h
    dsimp only at h
    cases h2 : lex_rparan s with
    | some p =>
      rw [h2] at h
      injection h with h3
      subst h3
      obtain ⟨ht, hms⟩ := lex_rparan_spec h2
      refine ⟨s.takeWhile isMultispace ++ [')'], ?_, ?_⟩
      · rw [List.append_assoc]
        rw [show [')'] ++ s1 = ')' :: s1 from rfl, ← hms]
        exact multispace0_split s
      · intro c hc
        rcases List.mem_append.mp hc with hc | hc
        · exact hws c hc
        · rcases List.mem_singleton.mp hc with rfl
          rfl
    | none =>
      rw [h2] at h
      dsimp only at h
      cases h3 : lex_integer s with
      | some p =>
        rw [h3] at h
        injection h with h4
        subst h4
        obtain ⟨v, ht, hnum⟩ := lex_integer_spec h3
        obtain ⟨pre, hp, hcls⟩ := nomI64_consumed hnum
        refine ⟨s.takeWhile isMultispace ++ pre, ?_, ?_⟩
        · rw [List.append_assoc, ← hp]
          exact multispace0_split s
        · intro c hc
          rcases List.mem_append.mp hc with hc | hc
          · exact hws c hc
          · rcases hcls c hc with hd | rfl | rfl
            · exact goodChar_of_digit hd
            · rfl
            · rfl
      | none =>
        rw [h3] at h
        dsimp only at h
        obtain ⟨hne, ht, hs1⟩ := lex_symbol_spec h
        refine ⟨s.takeWhile isMultispace ++ (multispace0 s).takeWhile symChar, ?_, ?_⟩
        · rw [List.append_assoc, hs1]
          rw [List.takeWhile_append_dropWhile]
          exact multispace0_split s
        · intro c hc
          rcases List.mem_append.mp hc with hc | hc
          · exact hws c hc
          · exact goodChar_of_symChar (List.mem_takeWhile_imp hc)

/-- C6: an input containing a character that no lexer rule can ever consume
(not whitespace, parenthesis, sign, digit, or symbol character) makes the
all-consuming lexer fail: the bad character survives every consumed step, so
the remainder is nonempty and the lexer returns an error, never a truncated
token list. -/
theorem c6_bad_char_fails (s : String) (c : Char) (hc : c ∈ s.data)
    (hbad : goodChar c = false) : lexer s = none := by
  suffices h : ∀ (n : Nat) (l : List Char), l.length ≤ n → c ∈ l →
      (many0L lexAlt l = none ∨
        ∃ rest toks, many0L lexAlt l = some (rest, toks) ∧ c ∈ rest) by
    unfold lexer
    rcases h s.data.length s.data le_rfl hc with hnone | ⟨rest, toks, hsome, hcr⟩
    · rw [hnone]
    · rw [hsome]
      have hne : rest.isEmpty = false := by
        cases rest with
        | nil => cases hcr
        | cons a b => rfl
      dsimp only
      rw [hne]
      rfl
  intro n
  induction n with
  | zero =>
    intro l hl hcl
    have : l = [] := by
      cases l with
      | nil => rfl
      | cons a b => simp at hl
    subst this
    cases hcl
  | succ k ih =>
    intro l hl hcl
    cases hf : lexAlt l with
    | none =>
      right
      refine ⟨l, [], ?_, hcl⟩
      rw [many0L.eq_def, hf]
    | some p =>
      obtain ⟨s1, t⟩ := p
      obtain ⟨pre, hsplit, hgood⟩ := lexAlt_consumed hf
      have hcs1 : c ∈ s1 := by
        rw [hsplit] at hcl
        rcases List.mem_append.mp hcl with hin | hin
        · rw [hgood c hin] at hbad
          cases hbad
        · exact hin
      by_cases hlt : s1.length < l.length
      · rcases ih s1 (by omega) hcs1 with hnone | ⟨rest, toks, hsome, hcr⟩
        · left
          rw [many0L.eq_def, hf]
          dsimp only
          rw [dif_pos hlt, hnone]
        · right
          refine ⟨rest, t :: toks, ?_, hcr⟩
          rw [many0L.eq_def, hf]
          dsimp only
          rw [dif_pos hlt, hsome]
      · left
        rw [many0L.eq_def, hf]
        dsimp only
        rw [dif_neg hlt]

/-- C6, witness: the dot in a.b matches no rule and tokenizing fails. -/
theorem c6_witness :
    '.' ∈ "a.b".data ∧ goodChar '.' = false ∧ lexer "a.b" = none :=
  ⟨by decide, by decide, c6_bad_char_fails "a.b" '.' (by decide) (by decide)⟩

/-- Any Symbol token a single alternation step produces comes from
lex_symbol, so its text is a nonempty run of symbol-class characters. -/
theorem lexAlt_symbol_spec {l s1 : List Char} {name : String}
    (h : lexAlt l = some (s1, Token.Symbol name)) :
    name.data ≠ [] ∧ ∀ c ∈ name.data, symChar c = true := by
  unfold lexAlt at h
  cases h1 : lex_lparan l with
  | some p =>
    rw [h1] at h
    injection h with h2
    subst h2
    obtain ⟨ht, _⟩ := lex_lparan_spec h1
    cases ht
  | none =>
    rw [h1] at h
    dsimp only at h
    cases h2 : lex_rparan l with
    | some p =>
      rw [h2] at h
      injection h with h3
      subst h3
      obtain ⟨ht, _⟩ := lex_rparan_spec h2
      cases ht
    | none =>
      rw [h2] at h
      dsimp only at h
      cases h3 : lex_integer l with
      | some p =>
        rw [h3] at h
        injection h with h4
        subst h4
        obtain ⟨v, ht, _⟩ := lex_integer_spec h3
        cases ht
      | none =>
        rw [h3] at h
        dsimp only at h
        obtain ⟨hne, ht, _⟩ := lex_symbol_spec h
        injection ht with hname
        subst hname
        constructor
        · show String.data (String.mk _) ≠ []
          intro hcon
          rw [show String.data (String.mk ((multispace0 l).takeWhile symChar)) =
            (multispace0 l).takeWhile symChar from rfl] at hcon
          rw [hcon] at hne
          cases hne
        · intro c hc
          exact List.mem_takeWhile_imp hc

theorem many0L_symbol_inv : ∀ (n : Nat) (l rest : List Char) (ts : List Token),
    l.length ≤ n → many0L lexAlt l = some (rest, ts) →
    ∀ name, Token.Symbol name ∈ ts →
      name.data ≠ [] ∧ ∀ c ∈ name.data, symChar c = true := by
  intro n
  induction n with
  | zero =>
    intro l rest ts hl hm name hmem
    have hnil : l = [] := by
      cases l with
      | nil => rfl
      | cons a b => simp at hl
    subst hnil
    rw [many0L.eq_def] at hm
    rw [show lexAlt [] = none from rfl] at hm
    injection hm with h1
    injection h1 with h2 h3
    rw [← h3] at hmem
    cases hmem
  | succ k ih =>
    intro l rest ts hl hm name hmem
    rw [many0L.eq_def] at hm
    cases hf : lexAlt l with
    | none =>
      rw [hf] at hm
      injection hm with h1
      injection h1 with h2 h3
      rw [← h3] at hmem
      cases hmem
    | some p =>
      obtain ⟨s1, t⟩ := p
      rw [hf] at hm
      dsimp only at hm
      by_cases hlt : s1.length < l.length
      · rw [dif_pos hlt] at hm
        cases hm2 : many0L lexAlt s1 with
        | none => rw [hm2] at hm; cases hm
        | some q =>
          obtain ⟨s2, ts2⟩ := q
          rw [hm2] at hm
          dsimp only at hm
          injection hm with h1
          injection h1 with h2 h3
          rw [← h3] at hmem
          rcases List.mem_cons.mp hmem with heq | htail
          · subst heq
            exact lexAlt_symbol_spec hf
          · exact ih s1 s2 ts2 (by omega) hm2 name htail
      · rw [dif_neg hlt] at hm
        cases hm

/-- C5, counterexample: the tokenizer uses Rust char::is_alphanumeric, which
is Unicode-wide: the input consisting of the single letter é lexes to a
Symbol whose text contains a character outside [A-Za-z0-9_]. -/
theorem c5_counterexample :
    lexer "é" = some [Token.Symbol "é"] ∧
    ('é'.isAlphanum || 'é' == '_') = false ∧ 'é' ∈ "é".data :=
  ⟨(lexer_eval "é").trans rfl, by decide, by decide⟩

/-- C5, amended: every Symbol token the tokenizer produces has nonempty text
whose characters all satisfy the symbol class actually used by the code:
Rust char::is_alphanumeric (Unicode alphanumeric) or underscore, a strict
superset of [A-Za-z0-9_]. -/
theorem c5_amended (s : String) (toks : List Token) (h : lexer s = some toks) :
    ∀ name, Token.Symbol name ∈ toks →
      name.data ≠ [] ∧ ∀ c ∈ name.data, symChar c = true := by
  unfold lexer at h
  cases hm : many0L lexAlt s.data with
  | none => rw [hm] at h; cases h
  | some p =>
    obtain ⟨rest, ts⟩ := p
    rw [hm] at h
    dsimp only at h
    split at h
    · injection h with h1
      subst h1
      exact fun name hmem =>
        many0L_symbol_inv s.data.length s.data rest ts le_rfl hm name hmem
    · cases h

/-- C5, witness: the input ab lexes to one Symbol token whose text is
nonempty and within the symbol class. -/
theorem c5_witness :
    lexer "ab" = some [Token.Symbol "ab"] ∧
    ("ab".data ≠ [] ∧ ∀ c ∈ "ab".data, symChar c = true) := by
  have h : lexer "ab" = some [Token.Symbol "ab"] := (lexer_eval "ab").trans rfl
  exact ⟨h, c5_amended "ab" [Token.Symbol "ab"] h "ab" (by simp)⟩

/-! Decimal rendering facts feeding the integer round-trip. -/

theorem digitChar_isDigit (d : Nat) : (digitChar d).isDigit = true := by
  unfold digitChar
  split <;> decide

theorem digitChar_val {d : Nat} (h : d < 10) : ((digitChar d).toNat - 48 : Nat) = d := by
  interval_cases d <;> decide

theorem natCharsAux_append (n : Nat) : ∀ acc : List Char,
    natCharsAux n acc = natChars n ++ acc := by
  induction n using Nat.strong_induction_on with
  | h n ih =>
    intro acc
    by_cases h : n < 10
    · rw [natCharsAux.eq_def, dif_pos h]
      conv_rhs => rw [show natChars n = natCharsAux n [] from rfl,
        natCharsAux.eq_def, dif_pos h]
      rfl
    · have hlt : n / 10 < n := Nat.div_lt_self (by omega) (by omega)
      rw [natCharsAux.eq_def, dif_neg h, ih (n / 10) hlt (digitChar (n % 10) :: acc)]
      conv_rhs => rw [show natChars n = natCharsAux n [] from rfl,
        natCharsAux.eq_def, dif_neg h, ih (n / 10) hlt [digitChar (n % 10)]]
      rw [List.append_assoc]
      rfl

theorem natChars_digits (n : Nat) : ∀ c ∈ natChars n, c.isDigit = true := by
  induction n using Nat.strong_induction_on with
  | h n ih =>
    intro c hc
    rw [show natChars n = natCharsAux n [] from rfl, natCharsAux.eq_def] at hc
    by_cases h : n < 10
    · rw [dif_pos h] at hc
      rcases List.mem_singleton.mp (by simpa using hc) with rfl
      exact digitChar_isDigit n
    · have hlt : n / 10 < n := Nat.div_lt_self (by omega) (by omega)
      rw [dif_neg h, natCharsAux_append (n / 10) [digitChar (n % 10)]] at hc
      rcases List.mem_append.mp hc with hc | hc
      · exact ih (n / 10) hlt c hc
      · rcases List.mem_singleton.mp hc with rfl
        exact digitChar_isDigit _

theorem natChars_ne_nil (n : Nat) : natChars n ≠ [] := by
  rw [show natChars n = natCharsAux n [] from rfl, natCharsAux.eq_def]
  by_cases h : n < 10
  · rw [dif_pos h]
    simp
  · rw [dif_neg h, natCharsAux_append (n / 10) [digitChar (n % 10)]]
    simp

theorem foldVal_mono : ∀ (cs : List Char) (a : Int), 0 ≤ a →
    (a ≤ foldVal a cs ∧ 0 ≤ foldVal a cs) := by
  intro cs
  induction cs with
  | nil => intro a ha; exact ⟨le_refl a, ha⟩
  | cons c r ih =>
    intro a ha
    have hd : (0 : Int) ≤ ((c.toNat - 48 : Nat) : Int) := Int.natCast_nonneg _
    have h10 : a ≤ a * 10 := by nlinarith
    have h1 : a ≤ a * 10 + ((c.toNat - 48 : Nat) : Int) := by linarith
    have := ih (a * 10 + ((c.toNat - 48 : Nat) : Int)) (by linarith)
    exact ⟨le_trans h1 this.1, this.2⟩

theorem foldValNeg_neg : ∀ (cs : List Char) (a : Int),
    foldValNeg (-a) cs = -(foldVal a cs) := by
  intro cs
  induction cs with
  | nil => intro a; rfl
  | cons c r ih =>
    intro a
    show foldValNeg ((-a) * 10 - ((c.toNat - 48 : Nat) : Int)) r =
      -(foldVal (a * 10 + ((c.toNat - 48 : Nat) : Int)) r)
    rw [show (-a) * 10 - ((c.toNat - 48 : Nat) : Int) =
      -(a * 10 + ((c.toNat - 48 : Nat) : Int)) by ring]
    exact ih (a * 10 + ((c.toNat - 48 : Nat) : Int))

theorem foldVal_natChars (n : Nat) : ∀ a : Int,
    foldVal a (natChars n) = a * 10 ^ (natChars n).length + (n : Int) := by
  induction n using Nat.strong_induction_on with
  | h n ih =>
    intro a
    by_cases h : n < 10
    · rw [show natChars n = natCharsAux n [] from rfl, natCharsAux.eq_def, dif_pos h]
      show a * 10 + (((digitChar n).toNat - 48 : Nat) : Int) =
        a * 10 ^ (List.length [digitChar n]) + (n : Int)
      rw [digitChar_val h]
      simp
    · have hlt : n / 10 < n := Nat.div_lt_self (by omega) (by omega)
      rw [show natChars n = natCharsAux n [] from rfl, natCharsAux.eq_def, dif_neg h,
        natCharsAux_append (n / 10) [digitChar (n % 10)]]
      have happ : foldVal a (natChars (n / 10) ++ [digitChar (n % 10)]) =
          (foldVal a (natChars (n / 10))) * 10 +
            (((digitChar (n % 10)).toNat - 48 : Nat) : Int) := by
        unfold foldVal
        rw [List.foldl_append]
        rfl
      rw [happ, ih (n / 10) hlt a, digitChar_val (Nat.mod_lt n (by omega))]
      have hlen : (natChars (n / 10) ++ [digitChar (n % 10)]).length =
          (natChars (n / 10)).length + 1 := by simp
      rw [hlen, pow_succ]
      have hmod : ((n / 10 : Nat) : Int) * 10 + ((n % 10 : Nat) : Int) = (n : Int) := by
        push_cast
        omega
      linear_combination hmod

theorem foldVal_natChars_zero (n : Nat) : foldVal 0 (natChars n) = (n : Int) := by
  rw [foldVal_natChars n 0]
  simp

theorem foldValNeg_anti : ∀ (cs : List Char) (a : Int), a ≤ 0 →
    (foldValNeg a cs ≤ a ∧ foldValNeg a cs ≤ 0) := by
  intro cs
  induction cs with
  | nil => intro a ha; exact ⟨le_refl a, ha⟩
  | cons c r ih =>
    intro a ha
    have hd : (0 : Int) ≤ ((c.toNat - 48 : Nat) : Int) := Int.natCast_nonneg _
    have h10 : a * 10 ≤ a := by nlinarith
    have h1 : a * 10 - ((c.toNat - 48 : Nat) : Int) ≤ a := by linarith
    have := ih (a * 10 - ((c.toNat - 48 : Nat) : Int)) (by linarith)
    exact ⟨le_trans this.1 h1, this.2⟩

theorem digit_facts {c : Char} (h : c.isDigit = true) :
    c ≠ '(' ∧ c ≠ ')' ∧ c ≠ '+' ∧ c ≠ '-' ∧ isMultispace c = false := by
  refine ⟨?_, ?_, ?_, ?_, ?_⟩
  · intro he; subst he; exact absurd h (by decide)
  · intro he; subst he; exact absurd h (by decide)
  · intro he; subst he; exact absurd h (by decide)
  · intro he; subst he; exact absurd h (by decide)
  · cases hw : isMultispace c with
    | false => rfl
    | true =>
      exfalso
      unfold isMultispace at hw
      simp only [Bool.or_eq_true, beq_iff_eq] at hw
      rcases hw with ((rfl | rfl) | rfl) | rfl <;> exact absurd h (by decide)

theorem i64Digits_pos_run : ∀ (cs rest : List Char) (acc : Int) (pos : Nat),
    (∀ c ∈ cs, c.isDigit = true) →
    (∀ c r2, rest = c :: r2 → c.isDigit = false) →
    0 ≤ acc → foldVal acc cs ≤ i64Max →
    (cs = [] → pos ≠ 0) →
    i64Digits false acc pos (cs ++ rest) = some (rest, foldVal acc cs) := by
  intro cs
  induction cs with
  | nil =>
    intro rest acc pos _ hrest _ _ hpos
    show i64Digits false acc pos rest = some (rest, acc)
    cases rest with
    | nil => rfl
    | cons c r2 =>
      have hcd : c.isDigit = false := hrest c r2 rfl
      have hp : pos ≠ 0 := hpos rfl
      unfold i64Digits
      rw [if_neg (by simp [hcd]), if_neg (by simp [hp])]
  | cons c cs2 ih =>
    intro rest acc pos hdig hrest hacc hmax hpos
    have hc : c.isDigit = true := hdig c (List.mem_cons_self c cs2)
    have hstep : foldVal acc (c :: cs2) =
        foldVal (acc * 10 + ((c.toNat - 48 : Nat) : Int)) cs2 := rfl
    have hv0 : (0 : Int) ≤ acc * 10 + ((c.toNat - 48 : Nat) : Int) := by
      have := Int.natCast_nonneg (c.toNat - 48)
      nlinarith
    have hle : acc * 10 + ((c.toNat - 48 : Nat) : Int) ≤ i64Max := by
      have hm := (foldVal_mono cs2 _ hv0).1
      rw [hstep] at hmax
      linarith
    show i64Digits false acc pos (c :: (cs2 ++ rest)) = _
    unfold i64Digits
    rw [if_pos hc]
    dsimp only
    rw [if_neg Bool.false_ne_true, if_neg (not_lt.mpr hle)]
    rw [ih rest _ (pos + 1) (fun x hx => hdig x (List.mem_cons_of_mem c hx)) hrest hv0
      (by rw [← hstep]; exact hmax) (fun _ => by omega)]
    rw [hstep]

theorem i64Digits_neg_run : ∀ (cs rest : List Char) (acc : Int) (pos : Nat),
    (∀ c ∈ cs, c.isDigit = true) →
    (∀ c r2, rest = c :: r2 → c.isDigit = false) →
    acc ≤ 0 → i64Min ≤ foldValNeg acc cs →
    (cs = [] → pos ≠ 0) →
    i64Digits true acc pos (cs ++ rest) = some (rest, foldValNeg acc cs) := by
  intro cs
  induction cs with
  | nil =>
    intro rest acc pos _ hrest _ _ hpos
    show i64Digits true acc pos rest = some (rest, acc)
    cases rest with
    | nil => rfl
    | cons c r2 =>
      have hcd : c.isDigit = false := hrest c r2 rfl
      have hp : pos ≠ 0 := hpos rfl
      unfold i64Digits
      rw [if_neg (by simp [hcd]), if_neg (by simp [hp])]
  | cons c cs2 ih =>
    intro rest acc pos hdig hrest hacc hmin hpos
    have hc : c.isDigit = true := hdig c (List.mem_cons_self c cs2)
    have hstep : foldValNeg acc (c :: cs2) =
        foldValNeg (acc * 10 - ((c.toNat - 48 : Nat) : Int)) cs2 := rfl
    have hv0 : acc * 10 - ((c.toNat - 48 : Nat) : Int) ≤ 0 := by
      have := Int.natCast_nonneg (c.toNat - 48)
      nlinarith
    have hge : i64Min ≤ acc * 10 - ((c.toNat - 48 : Nat) : Int) := by
      have hm := (foldValNeg_anti cs2 _ hv0).1
      rw [hstep] at hmin
      linarith
    show i64Digits true acc pos (c :: (cs2 ++ rest)) = _
    unfold i64Digits
    rw [if_pos hc]
    dsimp only
    rw [if_pos rfl, if_neg (not_lt.mpr hge)]
    rw [ih rest _ (pos + 1) (fun x hx => hdig x (List.mem_cons_of_mem c hx)) hrest hv0
      (by rw [← hstep]; exact hmin) (fun _ => by omega)]
    rw [hstep]

theorem nomI64_natChars (m : Nat) (rest : List Char)
    (hrest : ∀ c r2, rest = c :: r2 → c.isDigit = false)
    (hm : (m : Int) ≤ i64Max) :
    nomI64 (natChars m ++ rest) = some (rest, (m : Int)) := by
  obtain ⟨c0, cs0, hsplit⟩ : ∃ c0 cs0, natChars m = c0 :: cs0 := by
    cases hh : natChars m with
    | nil => exact absurd hh (natChars_ne_nil m)
    | cons a b => exact ⟨a, b, rfl⟩
  have hc0 : c0.isDigit = true := natChars_digits m c0 (by
    rw [hsplit]
    exact List.mem_cons_self c0 cs0)
  have hrun : i64Digits false 0 0 ((c0 :: cs0) ++ rest) = some (rest, (m : Int)) := by
    rw [i64Digits_pos_run (c0 :: cs0) rest 0 0
      (by rw [← hsplit]; exact natChars_digits m) hrest le_rfl
      (by rw [← hsplit, foldVal_natChars_zero]; exact hm)
      (by intro hcon; cases hcon)]
    rw [← hsplit, foldVal_natChars_zero]
  unfold nomI64
  dsimp only
  rw [hsplit]
  split
  next heq =>
    exfalso
    split at heq
    next r heq2 =>
      injection heq2 with h1 h2
      rw [h1] at hc0
      exact absurd hc0 (by decide)
    next r heq2 =>
      injection heq2 with h1 h2
      rw [h1] at hc0
      exact absurd hc0 (by decide)
    next =>
      simp at heq
  next heq =>
    split
    next r heq2 =>
      injection heq2 with h1 h2
      rw [h1] at hc0
      exact absurd hc0 (by decide)
    next r heq2 =>
      injection heq2 with h1 h2
      rw [h1] at hc0
      exact absurd hc0 (by decide)
    next =>
      exact hrun

theorem nomI64_neg_natChars (m : Nat) (rest : List Char)
    (hrest : ∀ c r2, rest = c :: r2 → c.isDigit = false)
    (hm : i64Min ≤ -(m : Int)) :
    nomI64 ('-' :: (natChars m ++ rest)) = some (rest, -(m : Int)) := by
  obtain ⟨c0, cs0, hsplit⟩ : ∃ c0 cs0, natChars m = c0 :: cs0 := by
    cases hh : natChars m with
    | nil => exact absurd hh (natChars_ne_nil m)
    | cons a b => exact ⟨a, b, rfl⟩
  have hvalneg : foldValNeg 0 (natChars m) = -(m : Int) := by
    rw [show (0 : Int) = -0 by ring, foldValNeg_neg, foldVal_natChars_zero]
  have hrun : i64Digits true 0 0 (natChars m ++ rest) = some (rest, -(m : Int)) := by
    rw [i64Digits_neg_run (natChars m) rest 0 0 (natChars_digits m) hrest le_rfl
      (by rw [hvalneg]; exact hm)
      (by intro hcon; exact absurd hcon (natChars_ne_nil m))]
    rw [hvalneg]
  unfold nomI64
  dsimp only
  split
  next heq =>
    exfalso
    split at heq
    next r heq2 =>
      injection heq2 with h1 h2
      exact absurd h1 (by decide)
    next r heq2 =>
      injection heq2 with h1 h2
      rw [← h2] at heq
      rw [hsplit] at heq
      simp at heq
    next hne1 hne2 =>
      exact absurd rfl (hne2 (natChars m ++ rest))
  next heq =>
    split
    next r heq2 =>
      injection heq2 with h1 h2
      exact absurd h1 (by decide)
    next r heq2 =>
      injection heq2 with h1 h2
      rw [← h2]
      exact hrun
    next hne1 hne2 =>
      exact absurd rfl (hne2 (natChars m ++ rest))

theorem multispace0_space {h : Char} {t : List Char} (hh : isMultispace h = false) :
    multispace0 (' ' :: h :: t) = h :: t := by
  unfold multispace0
  rw [List.dropWhile_cons, if_pos (by decide), List.dropWhile_cons, if_neg (by simp [hh])]

theorem lex_lparan_none {s : List Char} (h : ∀ r, multispace0 s ≠ '(' :: r) :
    lex_lparan s = none := by
  unfold lex_lparan
  split
  next r heq => exact absurd heq (h r)
  next => rfl

theorem lex_rparan_none {s : List Char} (h : ∀ r, multispace0 s ≠ ')' :: r) :
    lex_rparan s = none := by
  unfold lex_rparan
  split
  next r heq => exact absurd heq (h r)
  next => rfl

/-- Shape of the rendered decimal: its head is the minus sign or a digit,
and in both cases the head is not whitespace or a parenthesis. -/
theorem toDecimalChars_head (n : Int) :
    ∃ h t, toDecimalChars n = h :: t ∧ isMultispace h = false ∧ h ≠ '(' ∧ h ≠ ')' := by
  unfold toDecimalChars
  by_cases hn : n < 0
  · rw [if_pos hn]
    exact ⟨'-', _, rfl, by decide, by decide, by decide⟩
  · rw [if_neg hn]
    obtain ⟨c0, cs0, hsplit⟩ : ∃ c0 cs0, natChars n.toNat = c0 :: cs0 := by
      cases hh : natChars n.toNat with
      | nil => exact absurd hh (natChars_ne_nil _)
      | cons a b => exact ⟨a, b, rfl⟩
    have hc0 : c0.isDigit = true := natChars_digits _ c0 (by
      rw [hsplit]
      exact List.mem_cons_self c0 cs0)
    obtain ⟨h1, h2, _, _, h5⟩ := digit_facts hc0
    exact ⟨c0, cs0, hsplit, h5, h1, h2⟩

theorem nomI64_decimal (n : Int) (rest : List Char) (hmin : i64Min ≤ n) (hmax : n ≤ i64Max)
    (hrest : ∀ c r2, rest = c :: r2 → c.isDigit = false) :
    nomI64 (toDecimalChars n ++ rest) = some (rest, n) := by
  unfold toDecimalChars
  by_cases hn : n < 0
  · rw [if_pos hn]
    have habs : -((n.natAbs : Nat) : Int) = n := by omega
    rw [show ('-' :: natChars n.natAbs) ++ rest = '-' :: (natChars n.natAbs ++ rest) from rfl]
    rw [nomI64_neg_natChars n.natAbs rest hrest (by rw [habs]; exact hmin), habs]
  · rw [if_neg hn]
    have htn : ((n.toNat : Nat) : Int) = n := Int.toNat_of_nonneg (by omega)
    rw [nomI64_natChars n.toNat rest hrest (by rw [htn]; exact hmax), htn]

theorem lexAlt_decimal (n : Int) (rest : List Char) (hmin : i64Min ≤ n) (hmax : n ≤ i64Max)
    (hrest : ∀ c r2, rest = c :: r2 → c.isDigit = false) :
    lexAlt (' ' :: (toDecimalChars n ++ rest)) = some (rest, Token.Integer n) := by
  obtain ⟨h, t, hsplit, hws, hlp, hrp⟩ := toDecimalChars_head n
  have hms : multispace0 (' ' :: (toDecimalChars n ++ rest)) = toDecimalChars n ++ rest := by
    rw [hsplit]
    exact multispace0_space hws
  unfold lexAlt
  rw [lex_lparan_none (by
    intro r hcon
    rw [hms, hsplit] at hcon
    injection hcon with hc1 hc2
    exact hlp hc1)]
  rw [lex_rparan_none (by
    intro r hcon
    rw [hms, hsplit] at hcon
    injection hcon with hc1 hc2
    exact hrp hc1)]
  rw [show lex_integer (' ' :: (toDecimalChars n ++ rest)) = some (rest, Token.Integer n) from by
    unfold lex_integer
    rw [hms, nomI64_decimal n rest hmin hmax hrest]]

/-- C3, counterexample: 42 is within the i64 range, yet tokenizing the
padded string with trailing whitespace fails: the all-consuming lexer never
skips whitespace after the last token, so the trailing blank remains
unconsumed and the lexer errors instead of yielding the one-token list. -/
theorem c3_counterexample :
    i64Min ≤ (42 : Int) ∧ (42 : Int) ≤ i64Max ∧ lexer " 42 " = none :=
  ⟨by decide, by decide, (lexer_eval " 42 ").trans rfl⟩

/-- C3, amended: for every integer n in the signed 64-bit range, tokenizing
the decimal form of n with leading whitespace only yields exactly the
one-token sequence Integer n; appending trailing whitespace after the last
token instead makes the lexer fail, because whitespace is only consumed in
front of a token and all_consuming rejects the leftover. -/
theorem c3_lexer_decimal (n : Int) (hmin : i64Min ≤ n) (hmax : n ≤ i64Max) :
    lexer (String.mk (' ' :: toDecimalChars n)) = some [Token.Integer n] ∧
    lexer (String.mk (' ' :: toDecimalChars n ++ [' '])) = none := by
  constructor
  · unfold lexer
    rw [show (String.mk (' ' :: toDecimalChars n)).data = ' ' :: toDecimalChars n from rfl]
    have h1 : lexAlt (' ' :: toDecimalChars n) = some ([], Token.Integer n) := by
      have := lexAlt_decimal n [] hmin hmax (by intro c r2 hcon; cases hcon)
      rw [List.append_nil] at this
      exact this
    rw [many0L.eq_def, h1]
    dsimp only
    rw [dif_pos (by simp)]
    rw [show many0L lexAlt [] = some ([], []) from by rw [many0L.eq_def]; rfl]
    rfl
  · unfold lexer
    rw [show (String.mk (' ' :: toDecimalChars n ++ [' '])).data =
      ' ' :: (toDecimalChars n ++ [' ']) from rfl]
    have h1 : lexAlt (' ' :: (toDecimalChars n ++ [' '])) = some ([' '], Token.Integer n) :=
      lexAlt_decimal n [' '] hmin hmax (by
        intro c r2 hcon
        injection hcon with hc1 hc2
        rw [← hc1]
        decide)
    rw [many0L.eq_def, h1]
    dsimp only
    rw [dif_pos (by simp)]
    rw [show many0L lexAlt [' '] = some ([' '], []) from by rw [many0L.eq_def]; rfl]
    rfl

/-- C3, witness: the amended statement evaluated at 42. -/
theorem c3_witness :
    i64Min ≤ (42 : Int) ∧ (42 : Int) ≤ i64Max ∧
    lexer (String.mk (' ' :: toDecimalChars 42)) = some [Token.Integer 42] ∧
    lexer (String.mk (' ' :: toDecimalChars 42 ++ [' '])) = none :=
  ⟨by decide, by decide, (c3_lexer_decimal 42 (by decide) (by decide)).1,
    (c3_lexer_decimal 42 (by decide) (by decide)).2⟩

end Tasks
